import Mathlib

/-!
Verification of the focus-area extraction core of
src/codewhispererChat/editor/context/focusArea/focusAreaExtractor.ts.

The TypeScript source is shallowly embedded below.  A document is the list of
its lines (without newline terminators), as exposed by the VS Code
TextDocument collaborator:
  - document.lineCount            = doc.length
  - document.lineAt(i).range.end.character = lineLen doc i
  - document.getText(range)       = getRangeText doc range
  - document.getText()            = docFullText doc
VS Code positions are (line, character) pairs; getText clamps positions to
the document (validatePosition), and the Range constructor swaps its two
positions when the given start is not before or equal to the given end
("If start is not before or equal to end, the values will be swapped").
-/

namespace FocusArea

/-- vscode Position: zero-based line and character. -/
structure Pos where
  line : Nat
  char : Nat
deriving DecidableEq, Repr

/-- vscode Range.  `stop` models the source's `end` field (a Lean keyword). -/
structure Range where
  start : Pos
  stop : Pos
deriving DecidableEq, Repr

/-- Strict document order on positions. -/
def posLt (a b : Pos) : Prop :=
  a.line < b.line ∨ (a.line = b.line ∧ a.char < b.char)

instance (a b : Pos) : Decidable (posLt a b) := by
  unfold posLt; infer_instance

/-- The vscode `Range` constructor: if start is not before or equal to end,
the two positions are swapped. -/
def mkRange (a b : Pos) : Range :=
  if posLt b a then ⟨b, a⟩ else ⟨a, b⟩

/-- `focusAreaCharLimit` from the source. -/
def focusAreaCharLimit : Nat := 200

/-- Length of line `i`, i.e. `document.lineAt(i).range.end.character`.
Out-of-range lines are given length 0 here; the separate out-of-bounds flag
in the expansion loop records that VS Code `lineAt` would reject the index. -/
def lineLen (doc : List String) (i : Nat) : Nat :=
  (doc.getD i "").length

/-- Character offset of the start of line `l` in the rendered document
(each line contributes its length plus one newline). -/
def lineStartOffset (doc : List String) (l : Nat) : Nat :=
  ((doc.take l).map (fun s => s.length + 1)).sum

/-- Character offset of a position in the rendered document, after VS Code
position validation (line clamped into the document, character clamped to the
line's length). -/
def offsetOf (doc : List String) (p : Pos) : Nat :=
  if p.line < doc.length then
    lineStartOffset doc p.line + min p.char (lineLen doc p.line)
  else
    lineStartOffset doc (doc.length - 1) + lineLen doc (doc.length - 1)

/-- The rendered document: the lines joined with newlines. -/
def joinLines : List String → List Char
  | [] => []
  | [s] => s.data
  | s :: s2 :: rest => s.data ++ '\n' :: joinLines (s2 :: rest)

/-- `document.getText()`. -/
def docFullText (doc : List String) : String :=
  String.mk (joinLines doc)

/-- `document.getText(range)` (the source's `getRangeText`): the rendered
text between the two validated positions. -/
def getRangeText (doc : List String) (range : Range) : String :=
  String.mk (((joinLines doc).drop (offsetOf doc range.start)).take
    (offsetOf doc range.stop - offsetOf doc range.start))

theorem lineStartOffset_succ (doc : List String) (l : Nat) (h : l < doc.length) :
    lineStartOffset doc (l + 1) = lineStartOffset doc l + (lineLen doc l + 1) := by
  unfold lineStartOffset
  rw [List.take_succ, List.map_append, List.sum_append]
  have hg : doc[l]? = some doc[l] := List.getElem?_eq_getElem h
  simp [hg, lineLen, List.getD, Nat.add_comm]

theorem lineStartOffset_mono (doc : List String) {a b : Nat} (h : a ≤ b) :
    lineStartOffset doc a ≤ lineStartOffset doc b := by
  unfold lineStartOffset
  have : doc.take b = doc.take a ++ (doc.drop a).take (b - a) := by
    rw [← List.take_add]
    congr 1
    omega
  rw [this, List.map_append, List.sum_append]
  exact Nat.le_add_right _ _

theorem lineStartOffset_full (doc : List String) :
    lineStartOffset doc doc.length = (doc.map (fun s => s.length + 1)).sum := by
  unfold lineStartOffset
  rw [List.take_length]

theorem joinLines_single (s : String) : joinLines [s] = s.data := rfl

theorem joinLines_cons_cons (s s2 : String) (rest : List String) :
    joinLines (s :: s2 :: rest) = s.data ++ '\n' :: joinLines (s2 :: rest) := rfl

theorem joinLines_length (doc : List String) (h : doc ≠ []) :
    (joinLines doc).length + 1 = (doc.map (fun s => s.length + 1)).sum := by
  induction doc with
  | nil => simp at h
  | cons s rest ih =>
    have hs : s.length = s.data.length := rfl
    cases rest with
    | nil =>
      rw [joinLines_single]
      simp only [List.map_cons, List.map_nil, List.sum_cons, List.sum_nil]
      omega
    | cons s2 rest2 =>
      have hih := ih (by simp)
      rw [joinLines_cons_cons]
      simp only [List.map_cons, List.sum_cons] at hih ⊢
      simp only [List.length_append, List.length_cons]
      omega

theorem offsetOf_le (doc : List String) (p : Pos) :
    offsetOf doc p ≤ (joinLines doc).length := by
  unfold offsetOf
  by_cases hd : doc = []
  · subst hd
    simp [lineStartOffset, lineLen, joinLines]
  have hne : 0 < doc.length := List.length_pos.mpr hd
  have htot := joinLines_length doc hd
  rw [← lineStartOffset_full] at htot
  split
  · next h =>
    have h1 : lineStartOffset doc p.line + (lineLen doc p.line + 1) =
        lineStartOffset doc (p.line + 1) := (lineStartOffset_succ doc p.line h).symm
    have h2 : lineStartOffset doc (p.line + 1) ≤ lineStartOffset doc doc.length :=
      lineStartOffset_mono doc h
    have h3 : min p.char (lineLen doc p.line) ≤ lineLen doc p.line := Nat.min_le_right _ _
    omega
  · next h =>
    have h1 : lineStartOffset doc (doc.length - 1) + (lineLen doc (doc.length - 1) + 1) =
        lineStartOffset doc (doc.length - 1 + 1) :=
      (lineStartOffset_succ doc (doc.length - 1) (by omega)).symm
    have h2 : doc.length - 1 + 1 = doc.length := by omega
    rw [h2] at h1
    omega

theorem length_getRangeText (doc : List String) (r : Range) :
    (getRangeText doc r).length = offsetOf doc r.stop - offsetOf doc r.start := by
  unfold getRangeText
  simp only [String.length]
  have h1 := offsetOf_le doc r.stop
  simp [List.length_take, List.length_drop]
  omega

/-- The end-of-previous-line position used by both loops:
`(line - 1, document.lineAt(line - 1).range.end.character)`. -/
theorem offset_prev_end_lex (doc : List String) (eL c : Nat) (h : eL ≠ 0) :
    Prod.Lex (· < ·) (· < ·)
      (offsetOf doc ⟨eL - 1, lineLen doc (eL - 1)⟩, eL - 1)
      (offsetOf doc ⟨eL, c⟩, eL) := by
  by_cases hin : eL < doc.length
  · -- both lines are inside the document: the offset strictly decreases
    apply Prod.Lex.left
    have h1 : eL - 1 < doc.length := by omega
    have h2 : lineStartOffset doc (eL - 1) + (lineLen doc (eL - 1) + 1) =
        lineStartOffset doc (eL - 1 + 1) := (lineStartOffset_succ doc (eL - 1) h1).symm
    have h3 : eL - 1 + 1 = eL := by omega
    rw [h3] at h2
    simp only [offsetOf, if_pos h1, if_pos hin]
    have h4 : min (lineLen doc (eL - 1)) (lineLen doc (eL - 1)) = lineLen doc (eL - 1) :=
      Nat.min_self _
    omega
  · -- the old end line was clamped: the offsets agree and the line decreases
    have heq : offsetOf doc ⟨eL - 1, lineLen doc (eL - 1)⟩ = offsetOf doc ⟨eL, c⟩ := by
      by_cases h1 : eL - 1 < doc.length
      · have h2 : eL = doc.length := by omega
        simp only [offsetOf, if_pos h1, if_neg hin]
        have h3 : eL - 1 = doc.length - 1 := by omega
        rw [h3, Nat.min_self]
      · simp only [offsetOf, if_neg h1, if_neg hin]
    rw [heq]
    exact Prod.Lex.right _ (by omega)

/-- The source's `trimRangeAccordingToLimits`: while the rendered text is over
the budget and the range is not collapsed to a point, move the end up to the
end of the previous line (stopping if the end is already on line 0). -/
def trimRangeAccordingToLimits (doc : List String) (importantRange : Range) : Range :=
  if h : focusAreaCharLimit < (getRangeText doc importantRange).length ∧
      (importantRange.start.line ≠ importantRange.stop.line ∨
        (importantRange.start.line = importantRange.stop.line ∧
          importantRange.start.char ≠ importantRange.stop.char)) then
    if importantRange.stop.line = 0 then
      importantRange
    else
      trimRangeAccordingToLimits doc
        (mkRange importantRange.start
          ⟨importantRange.stop.line - 1, lineLen doc (importantRange.stop.line - 1)⟩)
  else
    importantRange
termination_by (offsetOf doc importantRange.stop, importantRange.stop.line)
decreasing_by
  rename_i h0
  unfold mkRange
  split
  · -- the vscode Range constructor swapped: the new end is the old start
    dsimp only
    apply Prod.Lex.left
    have h1 := length_getRangeText doc importantRange
    have h2 := h.1
    unfold focusAreaCharLimit at h2
    omega
  · dsimp only
    exact offset_prev_end_lex doc importantRange.stop.line importantRange.stop.char h0

/-- One auxiliary state of the source's `getExtendedCodeBlockRange` loop,
with explicit fuel (the source's loop need not terminate when the document is
exhausted before the budget is reached).  The second component of the result
records whether some `document.lineAt` call used a line index outside
`[0, lineCount)`, which the VS Code collaborator rejects. -/
def getExtendedCodeBlockRangeAux (doc : List String) :
    Nat → Range → Bool → Bool → Option (Range × Bool)
  | 0, _, _, _ => none
  | fuel + 1, importantRange, addLineBefore, oob =>
    if (getRangeText doc importantRange).length < focusAreaCharLimit ∧
        (importantRange.start.line ≠ 0 ∨ importantRange.stop.line ≠ doc.length) then
      if addLineBefore = true ∧ importantRange.start.line ≠ 0 then
        getExtendedCodeBlockRangeAux doc fuel
          (mkRange
            ⟨importantRange.start.line - 1, lineLen doc (importantRange.start.line - 1)⟩
            importantRange.stop)
          false
          (oob || decide (doc.length ≤ importantRange.start.line - 1))
      else
        getExtendedCodeBlockRangeAux doc fuel
          (mkRange importantRange.start
            ⟨importantRange.stop.line + 1, lineLen doc (importantRange.stop.line + 1)⟩)
          true
          (oob || decide (doc.length ≤ importantRange.stop.line + 1))
    else
      some (importantRange, oob)

/-- The source's `getExtendedCodeBlockRange` (fuelled; `none` means the loop
was still running after `fuel` iterations). -/
def getExtendedCodeBlockRange (doc : List String) (importantRange : Range) (fuel : Nat) :
    Option Range :=
  (getExtendedCodeBlockRangeAux doc fuel importantRange true false).map (fun p => p.1)

/-! ### The name finder collaborator and the curation of its results -/

/-- An entry of `names.simple.usedSymbols` / `names.simple.declaredSymbols`:
a record exposing a `symbol` text. -/
structure SymbolEntry where
  symbol : String
deriving DecidableEq, Repr

/-- `FullyQualifiedName` from the model module: a (source, symbol) pair. -/
structure FullyQualifiedName where
  source : String
  symbol : String
deriving DecidableEq, Repr

/-- The `simple` component of a name-finder result. -/
structure SimpleNames where
  usedSymbols : List SymbolEntry
  declaredSymbols : List SymbolEntry
deriving DecidableEq, Repr

/-- The `fullyQualified` component of a name-finder result. -/
structure FqNames where
  usedSymbols : List FullyQualifiedName
deriving DecidableEq, Repr

/-- A well-formed name-finder result object. -/
structure Names where
  simple : SimpleNames
  fullyQualified : FqNames
deriving DecidableEq, Repr

/-- The dynamically typed `names : any` value that `findNamesInRange` produces:
either `undefined` (an unmatched await result), the initial empty object
literal (kept when no language case matches; it has neither a `simple` nor a
`fullyQualified` field), or a well-formed result object. -/
inductive NamesValue where
  | undef : NamesValue
  | emptyObj : NamesValue
  | obj : Names → NamesValue
deriving DecidableEq, Repr

/-- `String.prototype.trim`: strip whitespace from both ends.
(Lean's own `String.trim` is extensionally the same but is not
kernel-reducible, so the loop is modelled on the character list.) -/
def jsTrim (s : String) : String :=
  String.mk (((s.data.dropWhile Char.isWhitespace).reverse.dropWhile
    Char.isWhitespace).reverse)

/-- Keep the first occurrence of every element, in first-seen order.  This is
the iteration order both of a JS `Set` and of a JS `Map` keyed by
`JSON.stringify([name.source, name.symbol])` (two string pairs collide on that
key exactly when they are equal, and the overwritten value is an identical
record, so only first-seen order remains observable). -/
def dedupKeepFirst [DecidableEq α] (seen : List α) : List α → List α
  | [] => []
  | x :: xs => if x ∈ seen then dedupKeepFirst seen xs else x :: dedupKeepFirst (x :: seen) xs

/-- Ascending string length, the order of `(a, b) => a.length - b.length`. -/
def lenLe (a b : String) : Prop := a.length ≤ b.length

instance : DecidableRel lenLe := fun a b => Nat.decLe a.length b.length

instance : IsTotal String lenLe := ⟨fun a b => Nat.le_total a.length b.length⟩

instance : IsTrans String lenLe := ⟨fun _ _ _ h h2 => Nat.le_trans h h2⟩

/-- Combined length of a fully qualified name. -/
def combLen (f : FullyQualifiedName) : Nat := f.source.length + f.symbol.length

/-- Ascending combined length, the order of
`(name, other) => name.source.length + name.symbol.length - (...)`. -/
def combLenLe (a b : FullyQualifiedName) : Prop := combLen a ≤ combLen b

instance : DecidableRel combLenLe := fun a b => Nat.decLe (combLen a) (combLen b)

instance : IsTotal FullyQualifiedName combLenLe := ⟨fun a b => Nat.le_total (combLen a) (combLen b)⟩

instance : IsTrans FullyQualifiedName combLenLe := ⟨fun _ _ _ h h2 => Nat.le_trans h h2⟩

/-- `maxUsedFullyQualifiedNamesLength` from the source. -/
def maxUsedFullyQualifiedNamesLength : Nat := 25

/-- `maxSimpleNamesLength` from the source. -/
def maxSimpleNamesLength : Nat := 100

/-- The source's `prepareFqns`.  `none` models the TypeError thrown when
`names` is the empty object literal (reading `usedSymbols` of the undefined
field `names.fullyQualified`); `names == undefined` only catches the
`undefined` value.  JS `sort` is stable, so it is modelled by the stable
`List.insertionSort`; `slice(0, 25)` is `take 25`. -/
def prepareFqns : NamesValue → Option (List FullyQualifiedName × Bool)
  | .undef => some ([], false)
  | .emptyObj => none
  | .obj names =>
    let usedFullyQualifiedNames := dedupKeepFirst [] names.fullyQualified.usedSymbols
    if maxUsedFullyQualifiedNamesLength < usedFullyQualifiedNames.length then
      some ((usedFullyQualifiedNames.insertionSort combLenLe).take
        maxUsedFullyQualifiedNamesLength, true)
    else
      some (usedFullyQualifiedNames, false)

/-- The filter-and-map stage of `prepareSimpleNames`: concatenate used and
declared symbols, keep entries whose trimmed text has length in (1, 129), and
map the survivors to their trimmed text. -/
def filteredSimpleNames (names : Names) : List String :=
  ((names.simple.usedSymbols ++ names.simple.declaredSymbols).filter
    (fun e => decide ((jsTrim e.symbol).length < 129 ∧ 1 < (jsTrim e.symbol).length))).map
    (fun e => jsTrim e.symbol)

/-- The source's `prepareSimpleNames`.  `none` models the TypeError on the
empty object literal (reading `usedSymbols` of the undefined field
`names.simple`); dedup (`[...new Set(...)]`, first-seen order) and the
length sort happen only when the raw filtered list is longer than 100;
`splice(0, n - 100)` drops the `n - 100` shortest entries. -/
def prepareSimpleNames : NamesValue → Option (List String × Bool)
  | .undef => some ([], false)
  | .emptyObj => none
  | .obj names =>
    let simpleNames := filteredSimpleNames names
    if maxSimpleNamesLength < simpleNames.length then
      let deduped := dedupKeepFirst [] simpleNames
      if maxSimpleNamesLength < deduped.length then
        let sorted := deduped.insertionSort lenLe
        some (sorted.drop (sorted.length - maxSimpleNamesLength), true)
      else
        some (deduped, true)
    else
      some (simpleNames, false)

/-! ### findNamesInRange and extract -/

/-- `Location` from the fully-qualified-names package. -/
structure Location where
  line : Nat
  char : Nat
deriving DecidableEq, Repr

/-- `Extent` from the fully-qualified-names package. -/
structure Extent where
  start : Location
  stop : Location
deriving DecidableEq, Repr

/-- The external language name finders (`Java`, `Tsx`, `Python`,
`TypeScript`); an awaited call may also resolve to `undefined`. -/
structure Finders where
  java : String → Extent → Option Names
  tsx : String → Extent → Option Names
  python : String → Extent → Option Names
  typescript : String → Extent → Option Names

/-- Lift an awaited finder result into the dynamic `names` value. -/
def toNamesValue : Option Names → NamesValue
  | none => .undef
  | some n => .obj n

/-- The characters removed by the `replace` call on line 133: the BMP
private use area and the two surrogate-pair emoji ranges
(D83C DF00-DFFF and D83D DC00-DDFF as code points). -/
def isRemovedChar (c : Char) : Bool :=
  (0xE000 ≤ c.toNat && c.toNat ≤ 0xF8FF) ||
  (0x1F300 ≤ c.toNat && c.toNat ≤ 0x1F3FF) ||
  (0x1F400 ≤ c.toNat && c.toNat ≤ 0x1F5FF)

/-- The string produced by the global-regex `fileText.replace(...)` call
that strips the character ranges above. -/
def removeSpecialChars (s : String) : String :=
  String.mk (s.data.filter (fun c => !(isRemovedChar c)))

/-- The source's `findNamesInRange`.  JS strings are immutable, so the
`replace` on line 133 computes a cleaned string whose value is discarded; the
finder receives the original `fileText`.  When no language case matches, the
initial `\x7b\x7d` object literal is kept. -/
def findNamesInRange (finders : Finders) (fileText : String) (selection : Range)
    (languageId : String) : NamesValue :=
  let _cleaned := removeSpecialChars fileText
  let startLocation : Location := ⟨selection.start.line, selection.start.char⟩
  let endLocation : Location := ⟨selection.stop.line, selection.stop.char⟩
  let extent : Extent := ⟨startLocation, endLocation⟩
  match languageId with
  | "java" => toNamesValue (finders.java fileText extent)
  | "javascript" => toNamesValue (finders.tsx fileText extent)
  | "javascriptreact" => toNamesValue (finders.tsx fileText extent)
  | "typescriptreact" => toNamesValue (finders.tsx fileText extent)
  | "python" => toNamesValue (finders.python fileText extent)
  | "typescript" => toNamesValue (finders.typescript fileText extent)
  | _ => .emptyObj

/-- The relevant state of a vscode `TextEditor`.  `document = none` models an
editor whose `document` is `undefined`. -/
structure Editor where
  document : Option (List String)
  selection : Range
  visibleRanges : List Range
  languageId : String

/-- `names` block of the produced context. -/
structure UsedFqns where
  used : List FullyQualifiedName
deriving DecidableEq, Repr

/-- `names` block of the produced context. -/
structure NamesContext where
  simpleNames : List String
  fullyQualifiedNames : UsedFqns
deriving DecidableEq, Repr

/-- The produced `FocusAreaContext`. -/
structure FocusAreaContext where
  extendedCodeBlock : String
  codeBlock : String
  selectionInsideExtendedCodeBlock : Option Range
  names : NamesContext
deriving DecidableEq, Repr

/-- The source's `getSelectionInsideExtendedCodeBlock`: `undefined` for a
pure cursor, otherwise the selection relative to the extended block's start
line.  (In every reachable state the extended range starts at or above the
selection, so the line differences are non-negative.) -/
def getSelectionInsideExtendedCodeBlock (originSelection : Range)
    (extendedCodeBlockRange : Range) : Option Range :=
  if originSelection.start.line = originSelection.stop.line ∧
      originSelection.start.char = originSelection.stop.char then
    none
  else
    some ⟨⟨originSelection.start.line - extendedCodeBlockRange.start.line,
           originSelection.start.char⟩,
          ⟨originSelection.stop.line - extendedCodeBlockRange.start.line,
           originSelection.stop.char⟩⟩

/-- The range of interest resolved from editor state: the selection, or the
first visible range when the selection is a pure cursor. -/
def resolvedImportantRange (editor : Editor) : Range :=
  if editor.selection.start.line = editor.selection.stop.line ∧
      editor.selection.start.char = editor.selection.stop.char then
    editor.visibleRanges.getD 0 ⟨⟨0, 0⟩, ⟨0, 0⟩⟩
  else
    editor.selection

/-- The dynamic `names` value `extract` obtains for a given editor state. -/
def resolvedNamesOf (finders : Finders) (editor : Editor) : NamesValue :=
  match editor.document with
  | none => .undef
  | some doc =>
    findNamesInRange finders (docFullText doc) (resolvedImportantRange editor)
      editor.languageId

/-- Outcome of one `extract` call. -/
inductive ExtractResult where
  | noDocument : ExtractResult
  | typeError : ExtractResult
  | fuelExhausted : ExtractResult
  | ok : FocusAreaContext → ExtractResult
deriving DecidableEq, Repr

/-- The source's `extract`.  `noDocument` is the `undefined` returned when
the editor has no document; `typeError` is the TypeError escaping from the
name preparation when `names` is the empty object literal; `fuelExhausted`
reports that the expansion loop was still running after `fuel` steps. -/
def extractWithDoc (finders : Finders) (fuel : Nat) (editor : Editor)
    (doc : List String) : ExtractResult :=
  let importantRange0 := resolvedImportantRange editor
  let names := findNamesInRange finders (docFullText doc) importantRange0 editor.languageId
  match prepareSimpleNames names, prepareFqns names with
  | some (simpleNames, _), some (usedFullyQualifiedNames, _) =>
    let importantRange := trimRangeAccordingToLimits doc importantRange0
    let codeBlock := getRangeText doc importantRange
    match getExtendedCodeBlockRange doc importantRange fuel with
    | none => .fuelExhausted
    | some extendedCodeBlockRange =>
      let simpleNames :=
        if simpleNames.length = 0 ∧ usedFullyQualifiedNames.length = 0 then
          [codeBlock]
        else
          simpleNames
      .ok { extendedCodeBlock := getRangeText doc extendedCodeBlockRange,
            codeBlock := codeBlock,
            selectionInsideExtendedCodeBlock :=
              getSelectionInsideExtendedCodeBlock editor.selection extendedCodeBlockRange,
            names := { simpleNames := simpleNames,
                       fullyQualifiedNames := { used := usedFullyQualifiedNames } } }
  | _, _ => .typeError

/-- The source's `extract`: `undefined` (here `noDocument`) when the editor
has no document, otherwise the body above. -/
def extract (finders : Finders) (fuel : Nat) (editor : Editor) : ExtractResult :=
  match editor.document with
  | none => .noDocument
  | some doc => extractWithDoc finders fuel editor doc

/-! ### Lemmas about deduplication and the stable sorts -/

theorem mem_dedupKeepFirst [DecidableEq α] (seen : List α) (l : List α) (x : α) :
    x ∈ dedupKeepFirst seen l ↔ x ∈ l ∧ x ∉ seen := by
  induction l generalizing seen with
  | nil => simp [dedupKeepFirst]
  | cons y ys ih =>
    unfold dedupKeepFirst
    by_cases hy : y ∈ seen
    · rw [if_pos hy, ih]
      constructor
      · rintro ⟨h1, h2⟩
        exact ⟨List.mem_cons_of_mem _ h1, h2⟩
      · rintro ⟨h1, h2⟩
        rcases List.mem_cons.mp h1 with h3 | h3
        · exact absurd (h3 ▸ hy) h2
        · exact ⟨h3, h2⟩
    · rw [if_neg hy]
      simp only [List.mem_cons, ih, List.mem_cons]
      constructor
      · rintro (rfl | ⟨h1, h2⟩)
        · exact ⟨Or.inl rfl, hy⟩
        · exact ⟨Or.inr h1, fun hx => h2 (Or.inr hx)⟩
      · rintro ⟨rfl | h1, h2⟩
        · exact Or.inl rfl
        · by_cases hxy : x = y
          · exact Or.inl hxy
          · exact Or.inr ⟨h1, fun hx => hx.elim hxy h2⟩

theorem dedupKeepFirst_sublist [DecidableEq α] (seen : List α) (l : List α) :
    List.Sublist (dedupKeepFirst seen l) l := by
  induction l generalizing seen with
  | nil => simp [dedupKeepFirst]
  | cons y ys ih =>
    unfold dedupKeepFirst
    by_cases hy : y ∈ seen
    · rw [if_pos hy]
      exact (ih seen).cons y
    · rw [if_neg hy]
      exact (ih (y :: seen)).cons₂ y

theorem dedupKeepFirst_nodup [DecidableEq α] (seen : List α) (l : List α) :
    (dedupKeepFirst seen l).Nodup := by
  induction l generalizing seen with
  | nil => simp [dedupKeepFirst]
  | cons y ys ih =>
    unfold dedupKeepFirst
    by_cases hy : y ∈ seen
    · rw [if_pos hy]
      exact ih seen
    · rw [if_neg hy]
      refine List.nodup_cons.mpr ⟨fun hmem => ?_, ih (y :: seen)⟩
      exact ((mem_dedupKeepFirst _ _ _).mp hmem).2 (List.mem_cons_self y seen)

theorem sorted_take_drop_rel (r : α → α → Prop) [DecidableRel r] [IsTotal α r]
    [IsTrans α r] (l : List α) (k : Nat) (x y : α)
    (hx : x ∈ (l.insertionSort r).take k) (hy : y ∈ (l.insertionSort r).drop k) :
    r x y := by
  have hs := List.sorted_insertionSort r l
  rw [← List.take_append_drop k (l.insertionSort r)] at hs
  exact (List.pairwise_append.mp hs).2.2 x hx y hy

theorem length_lt_of_mem_map_nodup {D : List String} (hK : (D.map String.length).Nodup)
    {x y : String} (hx : x ∈ D) (hy : y ∈ D) (hne : x ≠ y) (hle : lenLe x y) :
    x.length < y.length := by
  have hinj := List.inj_on_of_nodup_map hK
  have : x.length ≠ y.length := fun hcontra => hne (hinj hx hy hcontra)
  exact lt_of_le_of_ne hle this

/-- C4.  `prepareSimpleNames` keeps only entries whose trimmed symbol text
has length strictly between 1 and 129, maps them to their trimmed text, and
when more than `maxSimpleNamesLength` unique filtered strings remain (with
pairwise distinct lengths, so that "the longest" is well defined) it returns
exactly the 100 longest of them with the truncated flag set. -/
theorem prepareSimpleNames_cap_keeps_longest (n : Names)
    (hU : maxSimpleNamesLength < (dedupKeepFirst [] (filteredSimpleNames n)).length)
    (hK : ((dedupKeepFirst [] (filteredSimpleNames n)).map String.length).Nodup) :
    ∃ R, prepareSimpleNames (NamesValue.obj n) = some (R, true) ∧
      R.length = maxSimpleNamesLength ∧
      (∀ s ∈ R, s ∈ dedupKeepFirst [] (filteredSimpleNames n)) ∧
      (∀ s ∈ R, ∃ e ∈ n.simple.usedSymbols ++ n.simple.declaredSymbols,
        s = jsTrim e.symbol ∧ 1 < s.length ∧ s.length < 129) ∧
      (∀ x ∈ dedupKeepFirst [] (filteredSimpleNames n), x ∉ R →
        ∀ y ∈ R, x.length < y.length) := by
  have hDsub := dedupKeepFirst_sublist [] (filteredSimpleNames n)
  have hDlen : (dedupKeepFirst [] (filteredSimpleNames n)).length ≤
      (filteredSimpleNames n).length := hDsub.length_le
  have hF : maxSimpleNamesLength < (filteredSimpleNames n).length := lt_of_lt_of_le hU hDlen
  set D := dedupKeepFirst [] (filteredSimpleNames n) with hD
  set sorted := D.insertionSort lenLe with hsorted
  have hslen : sorted.length = D.length := List.length_insertionSort lenLe D
  refine ⟨sorted.drop (sorted.length - maxSimpleNamesLength), ?_, ?_, ?_, ?_, ?_⟩
  · simp only [prepareSimpleNames]
    rw [if_pos hF, if_pos hU]
  · simp only [List.length_drop]
    omega
  · intro s hs
    have h1 : s ∈ sorted := List.mem_of_mem_drop hs
    rw [hsorted, List.mem_insertionSort] at h1
    exact h1
  · intro s hs
    have h1 : s ∈ sorted := List.mem_of_mem_drop hs
    rw [hsorted, List.mem_insertionSort] at h1
    have h2 : s ∈ filteredSimpleNames n := ((mem_dedupKeepFirst [] _ s).mp h1).1
    unfold filteredSimpleNames at h2
    rcases List.mem_map.mp h2 with ⟨e, he, rfl⟩
    rcases List.mem_filter.mp he with ⟨he1, he2⟩
    rw [decide_eq_true_eq] at he2
    exact ⟨e, he1, rfl, he2.2, he2.1⟩
  · intro x hx hnx y hy
    have hxs : x ∈ sorted := by rw [hsorted, List.mem_insertionSort]; exact hx
    have hys : y ∈ D := by
      have := List.mem_of_mem_drop hy
      rw [hsorted, List.mem_insertionSort] at this
      exact this
    have hxt : x ∈ sorted.take (sorted.length - maxSimpleNamesLength) := by
      rcases List.mem_append.mp
        ((List.take_append_drop (sorted.length - maxSimpleNamesLength) sorted) ▸ hxs) with
        h | h
      · exact h
      · exact absurd h hnx
    have hle : lenLe x y := sorted_take_drop_rel lenLe D _ x y hxt hy
    have hne : x ≠ y := fun hcontra => hnx (hcontra ▸ hy)
    exact length_lt_of_mem_map_nodup hK hx hys hne hle

theorem combLen_lt_of_mem_map_nodup {D : List FullyQualifiedName}
    (hK : (D.map combLen).Nodup) {x y : FullyQualifiedName}
    (hx : x ∈ D) (hy : y ∈ D) (hne : x ≠ y) (hle : combLenLe x y) :
    combLen x < combLen y := by
  have hinj := List.inj_on_of_nodup_map hK
  have : combLen x ≠ combLen y := fun hcontra => hne (hinj hx hy hcontra)
  exact lt_of_le_of_ne hle this

/-- C5.  `prepareFqns` deduplicates the used fully-qualified occurrences by
exact (source, symbol) equality keeping first-seen order (the deduplicated
list is a sublist of the input containing exactly its elements, without
duplicates); with at most 25 unique pairs it returns them unchanged with the
flag false, and with more than 25 unique pairs (of pairwise distinct combined
lengths, so that "the shortest" is well defined) it returns exactly the 25
pairs of smallest combined length with the flag true. -/
theorem prepareFqns_cap_keeps_shortest (n : Names) :
    List.Sublist (dedupKeepFirst [] n.fullyQualified.usedSymbols)
      n.fullyQualified.usedSymbols ∧
    (dedupKeepFirst [] n.fullyQualified.usedSymbols).Nodup ∧
    (∀ x, x ∈ dedupKeepFirst [] n.fullyQualified.usedSymbols ↔
      x ∈ n.fullyQualified.usedSymbols) ∧
    ((dedupKeepFirst [] n.fullyQualified.usedSymbols).length ≤
        maxUsedFullyQualifiedNamesLength →
      prepareFqns (NamesValue.obj n) =
        some (dedupKeepFirst [] n.fullyQualified.usedSymbols, false)) ∧
    (maxUsedFullyQualifiedNamesLength <
        (dedupKeepFirst [] n.fullyQualified.usedSymbols).length →
      ((dedupKeepFirst [] n.fullyQualified.usedSymbols).map combLen).Nodup →
      ∃ R, prepareFqns (NamesValue.obj n) = some (R, true) ∧
        R.length = maxUsedFullyQualifiedNamesLength ∧
        (∀ x ∈ R, x ∈ dedupKeepFirst [] n.fullyQualified.usedSymbols) ∧
        (∀ x ∈ dedupKeepFirst [] n.fullyQualified.usedSymbols, x ∉ R →
          ∀ y ∈ R, combLen y < combLen x)) := by
  set D := dedupKeepFirst [] n.fullyQualified.usedSymbols with hD
  refine ⟨dedupKeepFirst_sublist [] _, dedupKeepFirst_nodup [] _, ?_, ?_, ?_⟩
  · intro x
    rw [hD, mem_dedupKeepFirst]
    simp
  · intro hle
    simp only [prepareFqns]
    rw [← hD, if_neg (by omega)]
  · intro hgt hK
    set sorted := D.insertionSort combLenLe with hsorted
    have hslen : sorted.length = D.length := List.length_insertionSort combLenLe D
    refine ⟨sorted.take maxUsedFullyQualifiedNamesLength, ?_, ?_, ?_, ?_⟩
    · simp only [prepareFqns]
      rw [if_pos hgt]
    · simp only [List.length_take]
      omega
    · intro x hx
      have h1 : x ∈ sorted := List.mem_of_mem_take hx
      rw [hsorted, List.mem_insertionSort] at h1
      exact h1
    · intro x hx hnx y hy
      have hxs : x ∈ sorted := by rw [hsorted, List.mem_insertionSort]; exact hx
      have hys : y ∈ D := by
        have := List.mem_of_mem_take hy
        rw [hsorted, List.mem_insertionSort] at this
        exact this
      have hxd : x ∈ sorted.drop maxUsedFullyQualifiedNamesLength := by
        rcases List.mem_append.mp
          ((List.take_append_drop maxUsedFullyQualifiedNamesLength sorted) ▸ hxs) with
          h | h
        · exact absurd h hnx
        · exact h
      have hle : combLenLe y x := sorted_take_drop_rel combLenLe D _ y x hy hxd
      have hne : y ≠ x := fun hcontra => hnx (hcontra ▸ hy)
      exact combLen_lt_of_mem_map_nodup hK hys hx hne hle

/-! ### Unfolding lemmas for the trim loop -/

set_option maxRecDepth 65536

theorem trim_eq_of_not_cond (doc : List String) (r : Range)
    (h : ¬ (focusAreaCharLimit < (getRangeText doc r).length ∧
      (r.start.line ≠ r.stop.line ∨
        (r.start.line = r.stop.line ∧ r.start.char ≠ r.stop.char)))) :
    trimRangeAccordingToLimits doc r = r := by
  rw [trimRangeAccordingToLimits.eq_def, dif_neg h]

theorem trim_eq_of_stop0 (doc : List String) (r : Range)
    (hg : focusAreaCharLimit < (getRangeText doc r).length ∧
      (r.start.line ≠ r.stop.line ∨
        (r.start.line = r.stop.line ∧ r.start.char ≠ r.stop.char)))
    (h0 : r.stop.line = 0) : trimRangeAccordingToLimits doc r = r := by
  rw [trimRangeAccordingToLimits.eq_def, dif_pos hg, if_pos h0]

theorem trim_step (doc : List String) (r : Range)
    (hg : focusAreaCharLimit < (getRangeText doc r).length ∧
      (r.start.line ≠ r.stop.line ∨
        (r.start.line = r.stop.line ∧ r.start.char ≠ r.stop.char)))
    (h0 : r.stop.line ≠ 0) :
    trimRangeAccordingToLimits doc r = trimRangeAccordingToLimits doc
      (mkRange r.start ⟨r.stop.line - 1, lineLen doc (r.stop.line - 1)⟩) := by
  rw [trimRangeAccordingToLimits.eq_def, dif_pos hg, if_neg h0]

theorem trim_of_length_le (doc : List String) (r : Range)
    (h : (getRangeText doc r).length ≤ focusAreaCharLimit) :
    trimRangeAccordingToLimits doc r = r :=
  trim_eq_of_not_cond doc r (fun hc => absurd hc.1 (Nat.not_lt.mpr h))

theorem trim_fixpoint (doc : List String) (r : Range) :
    trimRangeAccordingToLimits doc (trimRangeAccordingToLimits doc r) =
      trimRangeAccordingToLimits doc r := by
  induction r using trimRangeAccordingToLimits.induct doc with
  | case1 x hg h0 =>
    rw [trim_eq_of_stop0 doc x hg h0, trim_eq_of_stop0 doc x hg h0]
  | case2 x hg h0 ih =>
    rw [trim_step doc x hg h0]
    exact ih
  | case3 x hg =>
    rw [trim_eq_of_not_cond doc x hg, trim_eq_of_not_cond doc x hg]

theorem mkRange_of_not (a b : Pos) (h : ¬ posLt b a) : mkRange a b = ⟨a, b⟩ :=
  if_neg h

theorem mkRange_of_lt (a b : Pos) (h : posLt b a) : mkRange a b = ⟨b, a⟩ :=
  if_pos h

/-- When the range never crosses itself the trim loop leaves the start
untouched; ranges starting at line 0 with an in-bounds character never
cross. -/
theorem trim_start_of_line0 (doc : List String) (r : Range) :
    r.start.line = 0 → r.start.char ≤ lineLen doc 0 →
    (trimRangeAccordingToLimits doc r).start = r.start := by
  induction r using trimRangeAccordingToLimits.induct doc with
  | case1 x hg hs0 =>
    intro h0 hc
    rw [trim_eq_of_stop0 doc x hg hs0]
  | case2 x hg hs0 ih =>
    intro h0 hc
    rw [trim_step doc x hg hs0]
    have hns : ¬ posLt (⟨x.stop.line - 1, lineLen doc (x.stop.line - 1)⟩ : Pos) x.start := by
      intro hswap
      unfold posLt at hswap
      dsimp only at hswap
      rcases hswap with h1 | ⟨h1, h2⟩
      · omega
      · rw [h1, h0] at h2
        omega
    rw [mkRange_of_not _ _ hns] at ih
    rw [mkRange_of_not _ _ hns]
    exact ih h0 hc
  | case3 x hg =>
    intro h0 hc
    rw [trim_eq_of_not_cond doc x hg]

/-- An over-budget single-line range on line `L + 1`: the first shrink step
builds `new Range((L+1, a), (L, lineLen L))`, which the vscode constructor
swaps, so the trimmed range starts at the end of line `L`. -/
theorem trim_start_of_single_line (doc : List String) (L a b : Nat)
    (hlen : focusAreaCharLimit <
      (getRangeText doc ⟨⟨L + 1, a⟩, ⟨L + 1, b⟩⟩).length) :
    (trimRangeAccordingToLimits doc ⟨⟨L + 1, a⟩, ⟨L + 1, b⟩⟩).start =
      ⟨L, lineLen doc L⟩ := by
  have hab : a ≠ b := by
    intro heq
    subst heq
    rw [length_getRangeText] at hlen
    dsimp only at hlen
    omega
  have hg : focusAreaCharLimit <
      (getRangeText doc ⟨⟨L + 1, a⟩, ⟨L + 1, b⟩⟩).length ∧
      ((⟨⟨L + 1, a⟩, ⟨L + 1, b⟩⟩ : Range).start.line ≠
          (⟨⟨L + 1, a⟩, ⟨L + 1, b⟩⟩ : Range).stop.line ∨
        ((⟨⟨L + 1, a⟩, ⟨L + 1, b⟩⟩ : Range).start.line =
            (⟨⟨L + 1, a⟩, ⟨L + 1, b⟩⟩ : Range).stop.line ∧
          (⟨⟨L + 1, a⟩, ⟨L + 1, b⟩⟩ : Range).start.char ≠
            (⟨⟨L + 1, a⟩, ⟨L + 1, b⟩⟩ : Range).stop.char)) :=
    ⟨hlen, Or.inr ⟨rfl, hab⟩⟩
  rw [trim_step doc _ hg (by dsimp only; omega)]
  have hswap : posLt (⟨(⟨⟨L + 1, a⟩, ⟨L + 1, b⟩⟩ : Range).stop.line - 1,
      lineLen doc ((⟨⟨L + 1, a⟩, ⟨L + 1, b⟩⟩ : Range).stop.line - 1)⟩ : Pos)
      (⟨⟨L + 1, a⟩, ⟨L + 1, b⟩⟩ : Range).start := by
    unfold posLt
    dsimp only
    omega
  rw [mkRange_of_lt _ _ hswap]
  dsimp only
  have hL : L + 1 - 1 = L := rfl
  rw [hL]
  set s1 : Range := ⟨⟨L, lineLen doc L⟩, ⟨L + 1, a⟩⟩ with hs1
  by_cases hc1 : focusAreaCharLimit < (getRangeText doc s1).length ∧
      (s1.start.line ≠ s1.stop.line ∨
        (s1.start.line = s1.stop.line ∧ s1.start.char ≠ s1.stop.char))
  · rw [trim_step doc s1 hc1 (by rw [hs1]; dsimp only; omega)]
    have hstep : (mkRange s1.start ⟨s1.stop.line - 1, lineLen doc (s1.stop.line - 1)⟩) =
        ⟨⟨L, lineLen doc L⟩, ⟨L, lineLen doc L⟩⟩ := by
      rw [hs1]
      dsimp only
      rw [hL]
      exact mkRange_of_not _ _ (by unfold posLt; dsimp only; omega)
    rw [hstep]
    rw [trim_eq_of_not_cond doc _ (by dsimp only; omega)]
  · rw [trim_eq_of_not_cond doc s1 hc1]

/-! ### C9: trim is a no-op under the budget, and idempotent -/

/-- C9.  For every document and range whose rendered text length is already
at most the 200-character budget, `trimRangeAccordingToLimits` returns the
range unchanged; and trim is idempotent on every range. -/
theorem trim_noop_and_idempotent (doc : List String) (r : Range) :
    ((getRangeText doc r).length ≤ focusAreaCharLimit →
      trimRangeAccordingToLimits doc r = r) ∧
    trimRangeAccordingToLimits doc (trimRangeAccordingToLimits doc r) =
      trimRangeAccordingToLimits doc r :=
  ⟨trim_of_length_le doc r, trim_fixpoint doc r⟩

def w9Doc : List String := ["ab", "cd"]

/-- Witness for C9 at a concrete document and range. -/
theorem trim_noop_and_idempotent_witness :
    (trimRangeAccordingToLimits w9Doc ⟨⟨0, 1⟩, ⟨1, 1⟩⟩ = ⟨⟨0, 1⟩, ⟨1, 1⟩⟩) ∧
    trimRangeAccordingToLimits w9Doc (trimRangeAccordingToLimits w9Doc ⟨⟨0, 1⟩, ⟨1, 1⟩⟩) =
      trimRangeAccordingToLimits w9Doc ⟨⟨0, 1⟩, ⟨1, 1⟩⟩ :=
  ⟨(trim_noop_and_idempotent w9Doc ⟨⟨0, 1⟩, ⟨1, 1⟩⟩).1 (by decide),
   (trim_noop_and_idempotent w9Doc ⟨⟨0, 1⟩, ⟨1, 1⟩⟩).2⟩

/-! ### C3: the trim loop and the start of the range -/

def cex3Doc : List String := ["xy", String.mk (List.replicate 201 'a')]

/-- C3 counterexample.  For the two-line document whose second line has 201
characters and the single-line input range over that whole line (start
(1,0) ≤ end (1,201)), the trimmed range's start is (0,2), not the input
start (1,0): the shrink step builds `new Range((1,0), (0,2))` and the vscode
Range constructor swaps the crossed bounds. -/
theorem trim_moves_start_cex :
    trimRangeAccordingToLimits cex3Doc ⟨⟨1, 0⟩, ⟨1, 201⟩⟩ = ⟨⟨0, 2⟩, ⟨1, 0⟩⟩ ∧
    (⟨0, 2⟩ : Pos) ≠ ⟨1, 0⟩ := by
  constructor
  · rw [trim_step cex3Doc _ (by decide) (by decide)]
    rw [show mkRange (⟨1, 0⟩ : Pos) ⟨1 - 1, lineLen cex3Doc (1 - 1)⟩ =
      ⟨⟨0, 2⟩, ⟨1, 0⟩⟩ from by decide]
    exact trim_eq_of_not_cond cex3Doc _ (by decide)
  · decide

/-- C3 (amended).  The trimmed range keeps the input range's exact start
whenever no shrink step moves the end strictly before the start — in
particular whenever the input starts at line 0 with an in-bounds character.
When the input is a single-line range on a line `L + 1 ≥ 1` whose text
exceeds the 200-character budget, the shrink step does cross the start and
the vscode Range constructor swaps the bounds: the result's start is the end
of the previous line, `(L, lineLen L)`. -/
theorem trim_start_amended (doc : List String) :
    (∀ r : Range, r.start.line = 0 → r.start.char ≤ lineLen doc 0 →
      (trimRangeAccordingToLimits doc r).start = r.start) ∧
    (∀ L a b : Nat, focusAreaCharLimit <
        (getRangeText doc ⟨⟨L + 1, a⟩, ⟨L + 1, b⟩⟩).length →
      (trimRangeAccordingToLimits doc ⟨⟨L + 1, a⟩, ⟨L + 1, b⟩⟩).start =
        ⟨L, lineLen doc L⟩) :=
  ⟨fun r => trim_start_of_line0 doc r, fun L a b => trim_start_of_single_line doc L a b⟩

/-- Witness for the amended C3: both parts applied at concrete inputs. -/
theorem trim_start_amended_witness :
    (trimRangeAccordingToLimits w9Doc ⟨⟨0, 1⟩, ⟨1, 1⟩⟩).start = ⟨0, 1⟩ ∧
    (trimRangeAccordingToLimits cex3Doc ⟨⟨1, 0⟩, ⟨1, 201⟩⟩).start =
      ⟨0, lineLen cex3Doc 0⟩ :=
  ⟨(trim_start_amended w9Doc).1 ⟨⟨0, 1⟩, ⟨1, 1⟩⟩ rfl (by decide),
   (trim_start_amended cex3Doc).2 0 0 201 (by decide)⟩

/-! ### Unfolding lemmas for the expansion loop -/

theorem extendAux_stop (doc : List String) (fuel : Nat) (r : Range) (aLB oob : Bool)
    (h : ¬ ((getRangeText doc r).length < focusAreaCharLimit ∧
      (r.start.line ≠ 0 ∨ r.stop.line ≠ doc.length))) :
    getExtendedCodeBlockRangeAux doc (fuel + 1) r aLB oob = some (r, oob) := by
  simp only [getExtendedCodeBlockRangeAux]
  rw [if_neg h]

theorem extendAux_step_up (doc : List String) (fuel : Nat) (r : Range) (oob : Bool)
    (hg : (getRangeText doc r).length < focusAreaCharLimit ∧
      (r.start.line ≠ 0 ∨ r.stop.line ≠ doc.length))
    (hup : r.start.line ≠ 0) :
    getExtendedCodeBlockRangeAux doc (fuel + 1) r true oob =
      getExtendedCodeBlockRangeAux doc fuel
        (mkRange ⟨r.start.line - 1, lineLen doc (r.start.line - 1)⟩ r.stop)
        false (oob || decide (doc.length ≤ r.start.line - 1)) := by
  simp only [getExtendedCodeBlockRangeAux]
  rw [if_pos hg, if_pos ⟨trivial, hup⟩]

theorem extendAux_step_down (doc : List String) (fuel : Nat) (r : Range) (aLB oob : Bool)
    (hg : (getRangeText doc r).length < focusAreaCharLimit ∧
      (r.start.line ≠ 0 ∨ r.stop.line ≠ doc.length))
    (hdn : ¬ (aLB = true ∧ r.start.line ≠ 0)) :
    getExtendedCodeBlockRangeAux doc (fuel + 1) r aLB oob =
      getExtendedCodeBlockRangeAux doc fuel
        (mkRange r.start ⟨r.stop.line + 1, lineLen doc (r.stop.line + 1)⟩)
        true (oob || decide (doc.length ≤ r.stop.line + 1)) := by
  simp only [getExtendedCodeBlockRangeAux]
  rw [if_pos hg, if_neg hdn]

/-! ### C1: the upward growth step -/

def cex1Doc : List String := ["ab", String.mk (List.replicate 199 'a')]

/-- C1 counterexample.  On the document with lines "ab" and 199 times 'a',
expanding the range (1,0)-(1,199) takes exactly one upward step and stops at
the budget; the resulting start is (0,2) — the end of the previous line, with
character 2 = lineLen 0, not character 0 — and the rendered block grew by
one character (the newline), not by the whole previous line's text. -/
theorem expand_up_step_not_line_begin_cex :
    getExtendedCodeBlockRangeAux cex1Doc 5 ⟨⟨1, 0⟩, ⟨1, 199⟩⟩ true false =
      some (⟨⟨0, 2⟩, ⟨1, 199⟩⟩, false) ∧
    (2 : Nat) ≠ 0 ∧
    lineLen cex1Doc 0 = 2 ∧
    (getRangeText cex1Doc ⟨⟨0, 2⟩, ⟨1, 199⟩⟩).length =
      (getRangeText cex1Doc ⟨⟨1, 0⟩, ⟨1, 199⟩⟩).length + 1 := by
  decide

/-- C1 (amended).  Whenever an upward growth step is taken (upward preferred,
start line not 0), the resulting range's new start is the END of the previous
line — line `start.line - 1` with character `lineLen (start.line - 1)`, i.e.
`document.lineAt(start.line - 1).range.end.character` — and the end of the
range is unchanged by that step.  Consequently the step adds one newline plus
the part of the old start line before the old start character to the rendered
block, not the whole previous line's text. -/
theorem expand_up_step_amended (doc : List String) (fuel : Nat) (r : Range) (oob : Bool)
    (hlen : (getRangeText doc r).length < focusAreaCharLimit)
    (hbound : r.start.line ≠ 0 ∨ r.stop.line ≠ doc.length)
    (hup : r.start.line ≠ 0) (hord : r.start.line ≤ r.stop.line) :
    getExtendedCodeBlockRangeAux doc (fuel + 1) r true oob =
      getExtendedCodeBlockRangeAux doc fuel
        ⟨⟨r.start.line - 1, lineLen doc (r.start.line - 1)⟩, r.stop⟩ false
        (oob || decide (doc.length ≤ r.start.line - 1)) ∧
    (r.start.line < doc.length → offsetOf doc r.start ≤ offsetOf doc r.stop →
      (getRangeText doc
          ⟨⟨r.start.line - 1, lineLen doc (r.start.line - 1)⟩, r.stop⟩).length =
        (getRangeText doc r).length + 1 +
          min r.start.char (lineLen doc r.start.line)) := by
  constructor
  · rw [extendAux_step_up doc fuel r oob ⟨hlen, hbound⟩ hup]
    rw [mkRange_of_not _ _ (by unfold posLt; dsimp only; omega)]
  · intro hin hord2
    rw [length_getRangeText, length_getRangeText]
    dsimp only
    have h1 : r.start.line - 1 < doc.length := by omega
    have h2 := lineStartOffset_succ doc (r.start.line - 1) h1
    have h3 : r.start.line - 1 + 1 = r.start.line := by omega
    rw [h3] at h2
    have h4 : offsetOf doc ⟨r.start.line - 1, lineLen doc (r.start.line - 1)⟩ =
        lineStartOffset doc (r.start.line - 1) + lineLen doc (r.start.line - 1) := by
      simp only [offsetOf, if_pos h1, Nat.min_self]
    have h5 : offsetOf doc r.start =
        lineStartOffset doc r.start.line + min r.start.char (lineLen doc r.start.line) := by
      simp only [offsetOf]
      rw [if_pos hin]
    have h6 : min r.start.char (lineLen doc r.start.line) ≤ lineLen doc r.start.line :=
      Nat.min_le_right _ _
    omega

/-- Witness for the amended C1, on the document ["ab", "cd"] and the range
(1,1)-(1,2): the upward step lands at (0,2) and adds 2 characters (the
newline plus the one character of line 1 before the old start). -/
theorem expand_up_step_amended_witness :
    (getExtendedCodeBlockRangeAux w9Doc 1 ⟨⟨1, 1⟩, ⟨1, 2⟩⟩ true false =
      getExtendedCodeBlockRangeAux w9Doc 0 ⟨⟨0, 2⟩, ⟨1, 2⟩⟩ false false) ∧
    (getRangeText w9Doc ⟨⟨0, 2⟩, ⟨1, 2⟩⟩).length =
      (getRangeText w9Doc ⟨⟨1, 1⟩, ⟨1, 2⟩⟩).length + 1 +
        min 1 (lineLen w9Doc 1) := by
  have h := expand_up_step_amended w9Doc 0 ⟨⟨1, 1⟩, ⟨1, 2⟩⟩ false (by decide)
    (Or.inl (by decide)) (by decide) (by decide)
  exact ⟨h.1, h.2 (by decide) (by decide)⟩

/-! ### C2: the expansion loop and the document's last line -/

def cex2Doc : List String := ["a"]

/-- C2.  On the one-line document ["a"] (lineCount = 1, full text shorter
than the budget), expanding the trimmed range (0,0)-(0,1) immediately takes
a downward step that calls `document.lineAt(1)` — line index 1 = lineCount,
outside [0, lineCount) — before the loop's stopping predicate can fire: the
out-of-bounds flag of the run is true. -/
theorem expand_requests_out_of_bounds_line :
    getExtendedCodeBlockRangeAux cex2Doc 3 ⟨⟨0, 0⟩, ⟨0, 1⟩⟩ true false =
      some (⟨⟨0, 0⟩, ⟨1, 0⟩⟩, true) ∧
    cex2Doc.length = 1 := by
  decide

/-! ### C8: upward-first strict alternation over four steps -/

/-- C8.  For a range in the middle of the document (start line at least 2 and
two more lines below the end line) where the budget is reached after exactly
four expansion steps — the rendered length is under 200 for the initial range
and the first three stepped ranges, and at least 200 after the fourth step —
the expansion moves the start up by exactly 2 lines and the end down by
exactly 2 lines (upward-first strict alternation). -/
theorem expand_alternation_four_steps (doc : List String) (r : Range) (fuel : Nat)
    (hs2 : 2 ≤ r.start.line) (hord : r.start.line ≤ r.stop.line)
    (hmid : r.stop.line + 2 < doc.length)
    (h0 : (getRangeText doc r).length < focusAreaCharLimit)
    (h1 : (getRangeText doc
      ⟨⟨r.start.line - 1, lineLen doc (r.start.line - 1)⟩, r.stop⟩).length <
        focusAreaCharLimit)
    (h2 : (getRangeText doc
      ⟨⟨r.start.line - 1, lineLen doc (r.start.line - 1)⟩,
       ⟨r.stop.line + 1, lineLen doc (r.stop.line + 1)⟩⟩).length <
        focusAreaCharLimit)
    (h3 : (getRangeText doc
      ⟨⟨r.start.line - 2, lineLen doc (r.start.line - 2)⟩,
       ⟨r.stop.line + 1, lineLen doc (r.stop.line + 1)⟩⟩).length <
        focusAreaCharLimit)
    (h4 : focusAreaCharLimit ≤ (getRangeText doc
      ⟨⟨r.start.line - 2, lineLen doc (r.start.line - 2)⟩,
       ⟨r.stop.line + 2, lineLen doc (r.stop.line + 2)⟩⟩).length) :
    getExtendedCodeBlockRange doc r (fuel + 5) =
      some ⟨⟨r.start.line - 2, lineLen doc (r.start.line - 2)⟩,
            ⟨r.stop.line + 2, lineLen doc (r.stop.line + 2)⟩⟩ ∧
    r.start.line - 2 + 2 = r.start.line := by
  unfold getExtendedCodeBlockRange
  have hf5 : fuel + 5 = (fuel + 4) + 1 := by omega
  have hf4 : fuel + 4 = (fuel + 3) + 1 := by omega
  have hf3 : fuel + 3 = (fuel + 2) + 1 := by omega
  have hf2 : fuel + 2 = (fuel + 1) + 1 := by omega
  -- step 1: up
  rw [hf5, extendAux_step_up doc (fuel + 4) r false ⟨h0, Or.inl (by omega)⟩ (by omega)]
  rw [mkRange_of_not _ _ (by unfold posLt; dsimp only; omega)]
  rw [show (false || decide (doc.length ≤ r.start.line - 1)) = false from by
    simp only [Bool.false_or, decide_eq_false_iff_not]; omega]
  -- step 2: down
  rw [hf4, extendAux_step_down doc (fuel + 3) _ false false
    ⟨h1, Or.inl (by dsimp only; omega)⟩ (by simp)]
  dsimp only
  rw [mkRange_of_not _ _ (by unfold posLt; dsimp only; omega)]
  rw [show (false || decide (doc.length ≤ r.stop.line + 1)) = false from by
    simp only [Bool.false_or, decide_eq_false_iff_not]; omega]
  -- step 3: up
  rw [hf3, extendAux_step_up doc (fuel + 2) _ false
    ⟨h2, Or.inl (by dsimp only; omega)⟩ (by dsimp only; omega)]
  dsimp only
  rw [show r.start.line - 1 - 1 = r.start.line - 2 from by omega]
  rw [mkRange_of_not _ _ (by unfold posLt; dsimp only; omega)]
  rw [show (false || decide (doc.length ≤ r.start.line - 2)) = false from by
    simp only [Bool.false_or, decide_eq_false_iff_not]; omega]
  -- step 4: down
  rw [hf2, extendAux_step_down doc (fuel + 1) _ false false
    ⟨h3, Or.inr (by dsimp only; omega)⟩ (by simp)]
  dsimp only
  rw [show r.stop.line + 1 + 1 = r.stop.line + 2 from by omega]
  rw [mkRange_of_not _ _ (by unfold posLt; dsimp only; omega)]
  rw [show (false || decide (doc.length ≤ r.stop.line + 2)) = false from by
    simp only [Bool.false_or, decide_eq_false_iff_not]; omega]
  -- the budget is reached: the loop stops
  rw [extendAux_stop doc fuel _ true false (by
    intro hc
    have hc1 := hc.1
    omega)]
  refine ⟨rfl, by omega⟩

def w8Doc : List String :=
  [String.mk (List.replicate 60 'a'), String.mk (List.replicate 60 'a'),
   String.mk (List.replicate 60 'a'), String.mk (List.replicate 60 'a'),
   String.mk (List.replicate 60 'a')]

/-- Witness for C8: five 60-character lines, initial range over all of line
2; the budget of 200 is reached after exactly four steps, and the result
spans lines 0-4. -/
theorem expand_alternation_four_steps_witness :
    getExtendedCodeBlockRange w8Doc ⟨⟨2, 0⟩, ⟨2, 60⟩⟩ (0 + 5) =
      some ⟨⟨2 - 2, lineLen w8Doc (2 - 2)⟩, ⟨2 + 2, lineLen w8Doc (2 + 2)⟩⟩ ∧
    2 - 2 + 2 = 2 :=
  expand_alternation_four_steps w8Doc ⟨⟨2, 0⟩, ⟨2, 60⟩⟩ 0 (by decide) (by decide)
    (by decide) (by decide) (by decide) (by decide) (by decide) (by decide)

/-! ### Witnesses for the curation theorems -/

def w4Names : Names :=
  ⟨⟨(List.range 110).map (fun k => ⟨String.mk (List.replicate (k + 2) 'a')⟩), []⟩, ⟨[]⟩⟩

/-- Witness for C4: 110 unique symbol strings of distinct lengths 2..111,
all within the length filter. -/
theorem prepareSimpleNames_cap_keeps_longest_witness :
    ∃ R, prepareSimpleNames (NamesValue.obj w4Names) = some (R, true) ∧
      R.length = maxSimpleNamesLength ∧
      (∀ s ∈ R, s ∈ dedupKeepFirst [] (filteredSimpleNames w4Names)) ∧
      (∀ s ∈ R, ∃ e ∈ w4Names.simple.usedSymbols ++ w4Names.simple.declaredSymbols,
        s = jsTrim e.symbol ∧ 1 < s.length ∧ s.length < 129) ∧
      (∀ x ∈ dedupKeepFirst [] (filteredSimpleNames w4Names), x ∉ R →
        ∀ y ∈ R, x.length < y.length) :=
  prepareSimpleNames_cap_keeps_longest w4Names (by decide) (by decide)

def w5Names : Names :=
  ⟨⟨[], []⟩, ⟨(List.range 30).map (fun k => ⟨"s", String.mk (List.replicate (k + 1) 'b')⟩)⟩⟩

def w5SmallNames : Names :=
  ⟨⟨[], []⟩, ⟨[⟨"a", "b"⟩, ⟨"a", "b"⟩, ⟨"c", "d"⟩]⟩⟩

/-- Witness for C5: a list with a duplicated pair (2 unique pairs, returned
deduplicated and unchanged, flag false), and 30 unique pairs of distinct
combined lengths (exactly the 25 of smallest combined length remain, flag
true). -/
theorem prepareFqns_cap_keeps_shortest_witness :
    (prepareFqns (NamesValue.obj w5SmallNames) =
      some (dedupKeepFirst [] w5SmallNames.fullyQualified.usedSymbols, false)) ∧
    (∃ R, prepareFqns (NamesValue.obj w5Names) = some (R, true) ∧
      R.length = maxUsedFullyQualifiedNamesLength ∧
      (∀ x ∈ R, x ∈ dedupKeepFirst [] w5Names.fullyQualified.usedSymbols) ∧
      (∀ x ∈ dedupKeepFirst [] w5Names.fullyQualified.usedSymbols, x ∉ R →
        ∀ y ∈ R, combLen y < combLen x)) :=
  ⟨(prepareFqns_cap_keeps_shortest w5SmallNames).2.2.2.1 (by decide),
   (prepareFqns_cap_keeps_shortest w5Names).2.2.2.2 (by decide) (by decide)⟩

/-! ### A characterization of successful extractions -/

theorem extract_ok_elim (finders : Finders) (fuel : Nat) (editor : Editor)
    (ctx : FocusAreaContext) (hok : extract finders fuel editor = ExtractResult.ok ctx) :
    ∃ doc simpleNames sflag usedFqns fflag extRange,
      editor.document = some doc ∧
      prepareSimpleNames (resolvedNamesOf finders editor) = some (simpleNames, sflag) ∧
      prepareFqns (resolvedNamesOf finders editor) = some (usedFqns, fflag) ∧
      getExtendedCodeBlockRange doc
        (trimRangeAccordingToLimits doc (resolvedImportantRange editor)) fuel =
        some extRange ∧
      ctx = ⟨getRangeText doc extRange,
             getRangeText doc
               (trimRangeAccordingToLimits doc (resolvedImportantRange editor)),
             getSelectionInsideExtendedCodeBlock editor.selection extRange,
             ⟨(if simpleNames.length = 0 ∧ usedFqns.length = 0 then
                 [getRangeText doc
                   (trimRangeAccordingToLimits doc (resolvedImportantRange editor))]
               else simpleNames),
              ⟨usedFqns⟩⟩⟩ := by
  unfold extract at hok
  cases hd : editor.document with
  | none => rw [hd] at hok; exact absurd hok (by simp)
  | some doc =>
    rw [hd] at hok
    simp only [extractWithDoc] at hok
    have hres : resolvedNamesOf finders editor =
        findNamesInRange finders (docFullText doc) (resolvedImportantRange editor)
          editor.languageId := by
      unfold resolvedNamesOf
      rw [hd]
    rw [← hres] at hok
    refine ⟨doc, ?_⟩
    split at hok
    · next simpleNames sflag usedFqns fflag hps hpf =>
      split at hok
      · next hext => exact absurd hok (by simp)
      · next extRange hext =>
        refine ⟨simpleNames, sflag, usedFqns, fflag, extRange, rfl, hps, hpf, hext, ?_⟩
        have := hok
        injection this with h1
        exact h1.symm
    · next h1 h2 => exact absurd hok (by simp)

theorem prepareSimpleNames_nodup_of_gt (n : Names) (S : List String) (flag : Bool)
    (hgt : maxSimpleNamesLength < (filteredSimpleNames n).length)
    (h : prepareSimpleNames (NamesValue.obj n) = some (S, flag)) : S.Nodup := by
  simp only [prepareSimpleNames] at h
  rw [if_pos hgt] at h
  have hnd : (dedupKeepFirst [] (filteredSimpleNames n)).Nodup := dedupKeepFirst_nodup [] _
  by_cases hdd : maxSimpleNamesLength < (dedupKeepFirst [] (filteredSimpleNames n)).length
  · rw [if_pos hdd] at h
    simp only [Option.some.injEq, Prod.mk.injEq] at h
    rw [← h.1]
    have hperm := List.perm_insertionSort lenLe (dedupKeepFirst [] (filteredSimpleNames n))
    have hnd2 := hperm.nodup_iff.mpr hnd
    exact hnd2.sublist (List.drop_sublist _ _)
  · rw [if_neg hdd] at h
    simp only [Option.some.injEq, Prod.mk.injEq] at h
    rw [← h.1]
    exact hnd

/-! ### C6: duplicates in the returned simple names -/

def wBigLine : String := String.mk (List.replicate 200 'a')

def w6cNames : Names := ⟨⟨[⟨"ab"⟩, ⟨"ab"⟩], []⟩, ⟨[]⟩⟩

def w6cFinders : Finders :=
  ⟨fun _ _ => some w6cNames, fun _ _ => none, fun _ _ => none, fun _ _ => none⟩

def w6cEditor : Editor := ⟨some [wBigLine], ⟨⟨0, 0⟩, ⟨0, 200⟩⟩, [], "java"⟩

def w6cCtx : FocusAreaContext :=
  ⟨wBigLine, wBigLine, some ⟨⟨0, 0⟩, ⟨0, 200⟩⟩, ⟨["ab", "ab"], ⟨[]⟩⟩⟩

/-- C6 counterexample.  When the name finder reports the symbol "ab" twice
and the filtered raw list stays within the 100-entry cap, `extract` returns
`simpleNames = ["ab", "ab"]` — a duplicate: no deduplication happens in the
at-most-100 branch of `prepareSimpleNames`. -/
theorem extract_simpleNames_duplicate_cex :
    extract w6cFinders 1 w6cEditor = ExtractResult.ok w6cCtx ∧
    ¬ w6cCtx.names.simpleNames.Nodup := by
  constructor
  · have h1 : extract w6cFinders 1 w6cEditor =
        extractWithDoc w6cFinders 1 w6cEditor [wBigLine] := rfl
    rw [h1]
    have htrim : trimRangeAccordingToLimits [wBigLine] (resolvedImportantRange w6cEditor) =
        resolvedImportantRange w6cEditor := trim_of_length_le _ _ (by decide)
    simp only [extractWithDoc]
    rw [htrim]
    decide
  · decide

/-- C6 (amended).  The returned `names.simpleNames` is duplicate-free
whenever the filtered raw list is longer than 100 entries (only then does
`prepareSimpleNames` deduplicate); with at most 100 entries duplicates are
returned as-is. -/
theorem extract_simpleNames_nodup_amended (finders : Finders) (fuel : Nat)
    (editor : Editor) (ctx : FocusAreaContext) (n : Names)
    (hok : extract finders fuel editor = ExtractResult.ok ctx)
    (hn : resolvedNamesOf finders editor = NamesValue.obj n)
    (hgt : maxSimpleNamesLength < (filteredSimpleNames n).length) :
    ctx.names.simpleNames.Nodup := by
  obtain ⟨doc, S, sflag, U, uflag, ext, hd, hps, hpf, hext, hctx⟩ :=
    extract_ok_elim finders fuel editor ctx hok
  rw [hn] at hps
  have hS : S.Nodup := prepareSimpleNames_nodup_of_gt n S sflag hgt hps
  subst hctx
  dsimp only
  split
  · exact List.nodup_singleton _
  · exact hS

def w6aNames : Names := ⟨⟨List.replicate 101 ⟨"ab"⟩, []⟩, ⟨[]⟩⟩

def w6aFinders : Finders :=
  ⟨fun _ _ => some w6aNames, fun _ _ => none, fun _ _ => none, fun _ _ => none⟩

def w6aEditor : Editor := ⟨some [wBigLine], ⟨⟨0, 0⟩, ⟨0, 200⟩⟩, [], "java"⟩

def w6aCtx : FocusAreaContext :=
  ⟨wBigLine, wBigLine, some ⟨⟨0, 0⟩, ⟨0, 200⟩⟩, ⟨["ab"], ⟨[]⟩⟩⟩

/-- Witness for the amended C6: 101 copies of "ab" exceed the cap, the
dedup branch runs, and the returned list ⟨["ab"]⟩ has no duplicates. -/
theorem extract_simpleNames_nodup_amended_witness :
    w6aCtx.names.simpleNames.Nodup :=
  extract_simpleNames_nodup_amended w6aFinders 1 w6aEditor w6aCtx w6aNames
    (by
      have h1 : extract w6aFinders 1 w6aEditor =
          extractWithDoc w6aFinders 1 w6aEditor [wBigLine] := rfl
      rw [h1]
      have htrim : trimRangeAccordingToLimits [wBigLine]
          (resolvedImportantRange w6aEditor) = resolvedImportantRange w6aEditor :=
        trim_of_length_le _ _ (by decide)
      simp only [extractWithDoc]
      rw [htrim]
      decide)
    rfl
    (by decide)

/-! ### C7: fallback when the name finder yields undefined or empty sets -/

/-- C7.  If the name finder yields `undefined`, or yields a result whose
`usedSymbols`, `declaredSymbols` and `fullyQualified.usedSymbols` are all
empty, then a successful `extract` returns `simpleNames` equal to exactly
the one-element list containing `codeBlock` (the trimmed range's text) and
an empty `fullyQualifiedNames.used`; the name preparation itself raises no
error on these values. -/
theorem extract_fallback_on_empty_names (finders : Finders) (fuel : Nat)
    (editor : Editor) (ctx : FocusAreaContext)
    (hok : extract finders fuel editor = ExtractResult.ok ctx)
    (hempty : resolvedNamesOf finders editor = NamesValue.undef ∨
      ∃ n, resolvedNamesOf finders editor = NamesValue.obj n ∧
        n.simple.usedSymbols = [] ∧ n.simple.declaredSymbols = [] ∧
        n.fullyQualified.usedSymbols = []) :
    ctx.names.simpleNames = [ctx.codeBlock] ∧
    ctx.names.fullyQualifiedNames.used = [] := by
  obtain ⟨doc, S, sflag, U, uflag, ext, hd, hps, hpf, hext, hctx⟩ :=
    extract_ok_elim finders fuel editor ctx hok
  have hSU : S = [] ∧ U = [] := by
    rcases hempty with h | ⟨n, hn, h1, h2, h3⟩
    · rw [h] at hps hpf
      simp only [prepareSimpleNames, Option.some.injEq, Prod.mk.injEq] at hps
      simp only [prepareFqns, Option.some.injEq, Prod.mk.injEq] at hpf
      exact ⟨hps.1.symm, hpf.1.symm⟩
    · rw [hn] at hps hpf
      have hfil : filteredSimpleNames n = [] := by
        unfold filteredSimpleNames
        rw [h1, h2]
        rfl
      simp only [prepareSimpleNames, hfil, maxSimpleNamesLength, List.length_nil] at hps
      rw [if_neg (by omega)] at hps
      simp only [Option.some.injEq, Prod.mk.injEq] at hps
      simp only [prepareFqns, h3, maxUsedFullyQualifiedNamesLength, dedupKeepFirst,
        List.length_nil] at hpf
      rw [if_neg (by omega)] at hpf
      simp only [Option.some.injEq, Prod.mk.injEq] at hpf
      exact ⟨hps.1.symm, hpf.1.symm⟩
  obtain ⟨hS, hU⟩ := hSU
  subst hS hU hctx
  dsimp only
  constructor
  · rw [if_pos ⟨rfl, rfl⟩]
  · rfl

def w7Finders : Finders :=
  ⟨fun _ _ => none, fun _ _ => none, fun _ _ => none, fun _ _ => none⟩

def w7Editor : Editor := ⟨some [wBigLine], ⟨⟨0, 0⟩, ⟨0, 200⟩⟩, [], "java"⟩

def w7Ctx : FocusAreaContext :=
  ⟨wBigLine, wBigLine, some ⟨⟨0, 0⟩, ⟨0, 200⟩⟩, ⟨[wBigLine], ⟨[]⟩⟩⟩

/-- Witness for C7: the finder resolves to `undefined` and the produced
context carries exactly `[codeBlock]` and no fully qualified names. -/
theorem extract_fallback_witness :
    w7Ctx.names.simpleNames = [w7Ctx.codeBlock] ∧
    w7Ctx.names.fullyQualifiedNames.used = [] :=
  extract_fallback_on_empty_names w7Finders 1 w7Editor w7Ctx
    (by
      have h1 : extract w7Finders 1 w7Editor =
          extractWithDoc w7Finders 1 w7Editor [wBigLine] := rfl
      rw [h1]
      have htrim : trimRangeAccordingToLimits [wBigLine]
          (resolvedImportantRange w7Editor) = resolvedImportantRange w7Editor :=
        trim_of_length_le _ _ (by decide)
      simp only [extractWithDoc]
      rw [htrim]
      decide)
    (Or.inl rfl)

/-! ### C10: the name finder receives the unmodified document text -/

/-- C10.  For every set of finders, every document text and every range, the
text argument passed to the external language name finder is exactly the
original, unmodified `fileText` for each supported language identifier: the
private-use-area/emoji removal's result is discarded.  The final conjunct
exhibits a text on which the discarded removal is not the identity, so
passing the original text is observably different from passing the cleaned
text. -/
theorem findNamesInRange_passes_original_text (finders : Finders)
    (fileText : String) (selection : Range) :
    (findNamesInRange finders fileText selection "java" =
      toNamesValue (finders.java fileText
        ⟨⟨selection.start.line, selection.start.char⟩,
         ⟨selection.stop.line, selection.stop.char⟩⟩)) ∧
    (findNamesInRange finders fileText selection "javascript" =
      toNamesValue (finders.tsx fileText
        ⟨⟨selection.start.line, selection.start.char⟩,
         ⟨selection.stop.line, selection.stop.char⟩⟩)) ∧
    (findNamesInRange finders fileText selection "javascriptreact" =
      toNamesValue (finders.tsx fileText
        ⟨⟨selection.start.line, selection.start.char⟩,
         ⟨selection.stop.line, selection.stop.char⟩⟩)) ∧
    (findNamesInRange finders fileText selection "typescriptreact" =
      toNamesValue (finders.tsx fileText
        ⟨⟨selection.start.line, selection.start.char⟩,
         ⟨selection.stop.line, selection.stop.char⟩⟩)) ∧
    (findNamesInRange finders fileText selection "python" =
      toNamesValue (finders.python fileText
        ⟨⟨selection.start.line, selection.start.char⟩,
         ⟨selection.stop.line, selection.stop.char⟩⟩)) ∧
    (findNamesInRange finders fileText selection "typescript" =
      toNamesValue (finders.typescript fileText
        ⟨⟨selection.start.line, selection.start.char⟩,
         ⟨selection.stop.line, selection.stop.char⟩⟩)) ∧
    (removeSpecialChars (String.mk ['\uE000', 'a']) = "a" ∧
      String.mk ['\uE000', 'a'] ≠ "a") :=
  ⟨rfl, rfl, rfl, rfl, rfl, rfl, by decide, by decide⟩

end FocusArea
